import Mathlib

/-!
Verification of the merge-scan read path (`BlockReader`,
`be/src/vec/olap/block_reader.cpp`) of the Doris storage engine.

The development shallowly embeds the functions of `block_reader.cpp` as
executable Lean definitions: keys are abstracted as byte lists (for the
disjointness classifier) or as a single `Nat` merge key (for the reader state
machine, where only the iterator-provided ordering and the "same key as
predecessor" flag are consulted by the code); columnar machine data is
abstracted to one representative payload per column kind.  External
collaborators that are not part of the excerpted sources (the collect
iterator's heap, `Slice::lhs_is_strictly_less_than_rhs`, `Block::filter_block`)
are modelled from the specification and marked as such in their doc comments.
-/

namespace DorisBlockReader

/-- Lexicographic byte comparison: `lexLt x y` models `Slice::compare(x, y) < 0`
for the raw byte sequences of two keys. -/
def lexLt : List Nat → List Nat → Bool
  | [], [] => false
  | [], _ :: _ => true
  | _ :: _, [] => false
  | a :: as, b :: bs => if a < b then true else if b < a then false else lexLt as bs

/-- Here `isPre x y` holds when `x` is a (not necessarily proper) leading segment of `y`. -/
def isPre : List Nat → List Nat → Bool
  | [], _ => true
  | _ :: _, [] => false
  | a :: as, b :: bs => a == b && isPre as bs

/-- Modelled from the spec: `Slice::lhs_is_strictly_less_than_rhs` is not among
the excerpted sources (only its call site in `_rowsets_not_mono_asc_disjoint`
is).  Per the spec's words it is a truncation-aware strict less-than: when
either compared bound was truncated to a leading segment of the real key and
the two byte sequences agree on their common length (so the comparison is
inconclusive), it conservatively reports "not strictly less" (hence
non-disjoint); otherwise it is the plain lexicographic strict comparison. -/
def lhs_is_strictly_less_than_rhs (x : List Nat) (xt : Bool) (y : List Nat) (yt : Bool) : Bool :=
  if (xt || yt) && (isPre x y || isPre y x) then false else lexLt x y

/-- One rowset split as consulted by the disjointness classifier
(`RowSetSplits` / `Rowset` metadata): row count, the internal segment overlap
flag, the first key (`first_key` can fail, hence `Option`), the last key
(`last_key`'s success is asserted by `CHECK(has_last_key)` in the source, so it
is modelled total) and the `is_segments_key_bounds_truncated` flag. -/
structure RowsetMeta where
  num_rows : Nat
  segments_overlapping : Bool
  first_key : Option (List Nat)
  last_key : List Nat
  key_bounds_truncated : Bool
deriving DecidableEq

/-- The scan loop of `BlockReader::_rowsets_not_mono_asc_disjoint`, with the
running state `(pl, pt)` holding `pre_rs_last_key` / `pre_rs_key_bounds_truncated`
(initially the empty key, untruncated). -/
def disjointGo (pl : List Nat) (pt : Bool) : List RowsetMeta → Bool
  | [] => false
  | s :: rest =>
    if s.num_rows == 0 then disjointGo pl pt rest
    else if s.segments_overlapping then true
    else
      match s.first_key with
      | none => true
      | some fk =>
        if lhs_is_strictly_less_than_rhs pl pt fk s.key_bounds_truncated then
          disjointGo s.last_key s.key_bounds_truncated rest
        else true

/-- The classifier `BlockReader::_rowsets_not_mono_asc_disjoint`: `true` means the rowsets are
not a monotonically ascending disjoint sequence, i.e. the heap merge is
needed. -/
def rowsets_not_mono_asc_disjoint (splits : List RowsetMeta) : Bool :=
  disjointGo [] false splits

/-- The splits the classifier does not skip: those with a nonzero row count. -/
def nonEmptySplits (splits : List RowsetMeta) : List RowsetMeta :=
  splits.filter (fun s => !(s.num_rows == 0))

/-- The key bound a split contributes as "previous" for its successor. -/
def rsBounds (s : RowsetMeta) : List Nat × Bool :=
  (s.last_key, s.key_bounds_truncated)

/-- A consecutive pair `(previous bounds, current split)` violates the ordering
check: the current split has a first key that is not strictly greater (under
the truncation-aware comparison) than the previous last key. -/
def boundaryBad (pb : List Nat × Bool) (s : RowsetMeta) : Bool :=
  match s.first_key with
  | none => false
  | some fk => !(lhs_is_strictly_less_than_rhs pb.1 pb.2 fk s.key_bounds_truncated)

/-- Specification-side restatement of the classifier, for the characterization
proof: some non-empty split overlaps internally, or lacks a first key, or some
consecutive boundary (including the initial sentinel `([], untruncated)`) is
violated. -/
def specNeedsMergeFrom (pb : List Nat × Bool) (splits : List RowsetMeta) : Bool :=
  (nonEmptySplits splits).any (fun s => s.segments_overlapping) ||
  (nonEmptySplits splits).any (fun s => s.first_key.isNone) ||
  (List.zip (pb :: (nonEmptySplits splits).map rsBounds) (nonEmptySplits splits)).any
    (fun pr => boundaryBad pr.1 pr.2)

theorem disjointGo_eq_spec (splits : List RowsetMeta) :
    ∀ pb : List Nat × Bool, disjointGo pb.1 pb.2 splits = specNeedsMergeFrom pb splits := by
  induction splits with
  | nil => intro pb; simp [disjointGo, specNeedsMergeFrom, nonEmptySplits]
  | cons s rest ih =>
    intro pb
    by_cases hz : s.num_rows = 0
    · simpa [disjointGo, specNeedsMergeFrom, nonEmptySplits, hz] using ih pb
    · by_cases hov : s.segments_overlapping = true
      · simp [disjointGo, specNeedsMergeFrom, nonEmptySplits, hz, hov]
      · rcases hfk : s.first_key with _ | fk
        · simp [disjointGo, specNeedsMergeFrom, nonEmptySplits, hz, hov, hfk]
        · by_cases hlt :
              lhs_is_strictly_less_than_rhs pb.1 pb.2 fk s.key_bounds_truncated = true
          · have := ih (rsBounds s)
            simp [disjointGo, specNeedsMergeFrom, nonEmptySplits, hz, hov, hfk, hlt,
              boundaryBad, rsBounds] at this ⊢
            exact this
          · simp [disjointGo, specNeedsMergeFrom, nonEmptySplits, hz, hov, hfk,
              boundaryBad, Bool.not_eq_true] at hlt ⊢
            simp [hlt]

/-- C1: the disjointness classifier scans the splits in input order, skipping
every split with zero rows, and returns "needs heap merge" (`true`) iff some
non-empty split has internally overlapping segments, or lacks a first key, or
some consecutive boundary fails the truncation-aware strict-less comparison of
the previous non-empty split's last key against the current split's first key
(the first non-empty split being compared against the initial sentinel: the
empty, untruncated previous key).  In particular it never returns "disjoint"
when an overlapping or out-of-order pair of non-empty splits is present. -/
theorem claim_C1_disjointness_classifier (splits : List RowsetMeta) :
    rowsets_not_mono_asc_disjoint splits = true ↔
      ((∃ s ∈ nonEmptySplits splits, s.segments_overlapping = true) ∨
       (∃ s ∈ nonEmptySplits splits, s.first_key = none) ∨
       (∃ pr ∈ List.zip (([], false) :: (nonEmptySplits splits).map rsBounds)
            (nonEmptySplits splits), ∃ fk, pr.2.first_key = some fk ∧
          lhs_is_strictly_less_than_rhs pr.1.1 pr.1.2 fk pr.2.key_bounds_truncated = false)) := by
  have h := disjointGo_eq_spec splits ([], false)
  rw [rowsets_not_mono_asc_disjoint, h, specNeedsMergeFrom]
  simp only [Bool.or_eq_true, List.any_eq_true, Option.isNone_iff_eq_none]
  constructor
  · rintro ((⟨s, hs, hp⟩ | ⟨s, hs, hp⟩) | ⟨pr, hpr, hbad⟩)
    · exact Or.inl ⟨s, hs, hp⟩
    · exact Or.inr (Or.inl ⟨s, hs, hp⟩)
    · refine Or.inr (Or.inr ⟨pr, hpr, ?_⟩)
      unfold boundaryBad at hbad
      rcases hfk : pr.2.first_key with _ | fk
      · rw [hfk] at hbad; simp at hbad
      · rw [hfk] at hbad
        simp only [Bool.not_eq_true'] at hbad
        exact ⟨fk, rfl, hbad⟩
  · rintro (⟨s, hs, hp⟩ | ⟨s, hs, hp⟩ | ⟨pr, hpr, fk, hfk, hbad⟩)
    · exact Or.inl (Or.inl ⟨s, hs, hp⟩)
    · exact Or.inl (Or.inr ⟨s, hs, hp⟩)
    · refine Or.inr ⟨pr, hpr, ?_⟩
      unfold boundaryBad
      rw [hfk]
      simp [hbad]

/-! ## The merge reader state machine

The collect iterator (`VCollectIterator`) is consumed, not reimplemented, by
`BlockReader`; it is modelled as the list of rows it will surface, in delivery
order.  A surfaced row is abstracted to the data the reader consults. -/

/-- One merged row as surfaced by the collect iterator (`IteratorRowRef`):
`key` abstracts the tuple of key columns (only the delivery order and the
duplicate flag are consulted by the reader); `aval` abstracts the payload of an
aggregated value column; `delete_sign` is the value of the reserved
delete-marker column; `row_loc` is the row's source location (its `row_id`);
`is_same` is the iterator's "same key as predecessor" tag (`RowRef::is_same`
and the stored `Block::get_same_bit` fallback of `_get_next_row_same`,
collapsed into one field); `last_in_block` tells whether the row is the last
row of its owning source block
(`_next_row.block->rows() == _next_row.row_pos + 1`). -/
structure RowRef where
  key : Nat
  aval : Int
  delete_sign : Int
  row_loc : Int
  is_same : Bool
  last_in_block : Bool
deriving DecidableEq, Inhabited

/-- The aggregate-function contract used by the reader (spec 9: create /
accumulate range / finalize into output / reset): opaque state `σ`, `init` the
freshly created state (`create`, also the state after `reset`), `add` a single
accumulation step (`add_batch_range` folds it over a stored-column range) and
`result` the finalization (`insert_result_into`).  The reader never inspects
the state. -/
structure AggFn (σ : Type) where
  init : σ
  add : σ → Int → σ
  result : σ → Int

/-- The aggregation bookkeeping of `BlockReader` for one aggregated column:
`_stored_row_ref` (buffered rows since the last flush), `_agg_data_counters`
(lengths of the completed runs since the last flush), `_last_agg_data_counter`
(length of the still-open run since the last flush) and the aggregate state
buffer (`_agg_places` entry). -/
structure AggSt (σ : Type) where
  stored_row_ref : List RowRef
  agg_data_counters : List Nat
  last_agg_data_counter : Nat
  place : σ

/-- The mutable state of a `BlockReader` between calls: the current row
(`_next_row`), the not-yet-surfaced remainder of the iterator, the `_eof` flag,
the aggregation bookkeeping, and the counters / row-location side channel
(`_merged_rows`, `_stats.rows_del_filtered`, `_block_row_locations`, each
location abstracted to its `row_id`). -/
structure Reader (σ : Type) where
  next_row : RowRef
  stream : List RowRef
  eof : Bool
  agg : AggSt σ
  merged_rows : Nat
  rows_del_filtered : Nat
  block_row_locations : List Int

/-- The scan configuration consulted by the next-block strategies:
`_reader_context.batch_size`, `_reader_context.record_rowids`,
`_delete_sign_available`, the delete-sign column's schema index
(`tablet_schema->field_index(DELETE_SIGN)`, an `int` that may be negative) and
the number of output columns (`target_columns.size()`). -/
structure Params where
  batch_size : Nat
  record_rowids : Bool
  delete_sign_available : Bool
  delete_sign_idx : Int
  num_columns : Nat
deriving DecidableEq

/-- The observable outcome of one next-block call: the returned status (always
OK in this model — iterator I/O errors are external and out of scope), the
`*eof` out-parameter, the rows of the delivered block, the rows populated into
`target_columns` before any post-filter (`built`, with
`target_block_row = built.length`), the values appended to the aggregated
output column this call, the names of synthetic columns present in the
delivered block beyond the schema, the `_block_row_locations` side channel
after the call, the `merged_row` delta, whether a warning was logged, and the
reader state after the call. -/
structure NextRes (σ : Type) where
  ok : Bool
  eof : Bool
  rows : List RowRef
  built : List RowRef
  aggOut : List Int
  extra_names : List String
  locs : List Int
  merged : Nat
  warned : Bool
  reader : Reader σ

/-- The rows the iterator has yet to deliver, current row first (empty once
`_eof`). -/
def inputRows {σ : Type} (st : Reader σ) : List RowRef :=
  if st.eof then [] else st.next_row :: st.stream

/-- Reposition a reader on a list of remaining rows: an empty list marks
`_eof`, otherwise the head becomes `_next_row`. -/
def advanceTo {σ : Type} (st : Reader σ) (l : List RowRef) : Reader σ :=
  match l with
  | [] => { st with eof := true }
  | r :: rest => { st with next_row := r, stream := rest, eof := false }

/-- The flush step `BlockReader::_update_agg_value` for one aggregated column: fold the
aggregate over the stored-column rows `[b, e]` (inclusive; skipped when
`b > e`, mirroring the `begin <= end` guard around `add_batch_range`); when
`is_close`, `insert_result_into` appends the finalized value to the output
column and the state is `reset` to a fresh one. -/
def update_agg_value {σ : Type} (fn : AggFn σ) (vals : List Int) (place : σ)
    (out : List Int) (b e : Int) (is_close : Bool) : σ × List Int :=
  let place :=
    if b ≤ e then ((vals.drop b.toNat).take (e - b + 1).toNat).foldl fn.add place else place
  if is_close then (fn.init, out ++ [fn.result place]) else (place, out)

/-- The flush `BlockReader::_update_agg_data`: first `_copy_agg_data` lands the buffered rows'
values in the stored column in buffer order (both the variable-length rebuild
and the fixed-length `replace_column_data` branch write row `i`'s value at
position `i`; positions past `copy_size` are never read), then every completed
run recorded in `_agg_data_counters` is accumulated and closed, and a nonzero
`_last_agg_data_counter` run is accumulated without closing (its state is
retained) and the counter reset.  The buffer and the counters are cleared. -/
def update_agg_data {σ : Type} (fn : AggFn σ) (ast : AggSt σ) (out : List Int) :
    AggSt σ × List Int :=
  let vals := ast.stored_row_ref.map (fun r => r.aval)
  let fold := ast.agg_data_counters.foldl
    (fun acc (c : Nat) =>
      let pr := update_agg_value fn vals acc.1 acc.2.1 acc.2.2 (acc.2.2 + (c : Int) - 1) true
      (pr.1, pr.2, acc.2.2 + (c : Int)))
    (ast.place, out, (0 : Int))
  let fin :=
    if ast.last_agg_data_counter ≠ 0 then
      let pr := update_agg_value fn vals fold.1 fold.2.1 fold.2.2
        (fold.2.2 + (ast.last_agg_data_counter : Int) - 1) false
      (pr.1, pr.2, 0)
    else (fold.1, fold.2.1, ast.last_agg_data_counter)
  ({ stored_row_ref := [], agg_data_counters := [], last_agg_data_counter := fin.2.2,
     place := fin.1 }, fin.2.1)

/-- The accumulation entry `BlockReader::_append_agg_data`: buffer the current row, grow the open-run
counter, and flush (`_update_agg_data`) when the row is the last of its owning
source block (whose references would soon be invalid) or the buffer has reached
`batch_size`. -/
def append_agg_data {σ : Type} (p : Params) (fn : AggFn σ) (r : RowRef) (ast : AggSt σ)
    (out : List Int) : AggSt σ × List Int :=
  let ast := { ast with stored_row_ref := ast.stored_row_ref ++ [r],
                        last_agg_data_counter := ast.last_agg_data_counter + 1 }
  if r.last_in_block || ast.stored_row_ref.length == p.batch_size then
    update_agg_data fn ast out
  else (ast, out)

/-- Result of the pull loop of `_agg_key_next_block`: the output rows so far,
the aggregated output column so far, the aggregation bookkeeping, the current
row (`_next_row` after the loop), the undelivered remainder of the iterator,
the end-of-file flag and the `merged_row` counter. -/
structure AggLoopRes (σ : Type) where
  rows : List RowRef
  out : List Int
  ast : AggSt σ
  cur : RowRef
  stream : List RowRef
  eofF : Bool
  merged : Nat

/-- The `while (true)` pull loop of `BlockReader::_agg_key_next_block`: pull
the next row; on end-of-file stop; a row tagged same-key is merged into the
open run (`merged_row++` and accumulate); a row starting a new key-group breaks
the loop if the block already holds `batch_size` rows (the row stays as
`_next_row` for the next call), and otherwise closes the previous run
(recording its length), appends the row as a new output row and accumulates
it. -/
def aggLoop {σ : Type} (p : Params) (fn : AggFn σ) :
    List RowRef → RowRef → AggSt σ → List RowRef → List Int → Nat → AggLoopRes σ
  | [], cur, ast, rows, out, merged =>
    { rows := rows, out := out, ast := ast, cur := cur, stream := [], eofF := true,
      merged := merged }
  | r :: rest, _, ast, rows, out, merged =>
    if r.is_same then
      let pr := append_agg_data p fn r ast out
      aggLoop p fn rest r pr.1 rows pr.2 (merged + 1)
    else if rows.length == p.batch_size then
      { rows := rows, out := out, ast := ast, cur := r, stream := rest, eofF := false,
        merged := merged }
    else
      let ast' := { ast with
        agg_data_counters := ast.agg_data_counters ++ [ast.last_agg_data_counter],
        last_agg_data_counter := 0 }
      let pr := append_agg_data p fn r ast' out
      aggLoop p fn rest r pr.1 (rows ++ [r]) pr.2 merged

/-- The strategy `BlockReader::_agg_key_next_block`: at `_eof` report end-of-stream with OK;
otherwise append the current row as the first output row, accumulate it, run
the pull loop, then close the final run (push `_last_agg_data_counter`, reset
it) and flush everything into the output columns. -/
def agg_key_next_block {σ : Type} (p : Params) (fn : AggFn σ) (st : Reader σ) : NextRes σ :=
  if st.eof then
    { ok := true, eof := true, rows := [], built := [], aggOut := [], extra_names := [],
      locs := st.block_row_locations, merged := 0, warned := false, reader := st }
  else
    let pr := append_agg_data p fn st.next_row st.agg []
    let lr := aggLoop p fn st.stream st.next_row pr.1 [st.next_row] pr.2 0
    let ast := { lr.ast with
      agg_data_counters := lr.ast.agg_data_counters ++ [lr.ast.last_agg_data_counter],
      last_agg_data_counter := 0 }
    let fin := update_agg_data fn ast lr.out
    { ok := true, eof := lr.eofF, rows := lr.rows, built := lr.rows, aggOut := fin.2,
      extra_names := [], locs := st.block_row_locations, merged := lr.merged, warned := false,
      reader := { st with
        next_row := lr.cur
        stream := lr.stream
        eof := lr.eofF
        agg := fin.1
        merged_rows := st.merged_rows + lr.merged } }

/-- Result of the build loop of `_unique_key_next_block`: the populated rows,
the current row after the loop, the undelivered remainder and the end-of-file
flag. -/
structure UniqueLoopRes where
  built : List RowRef
  cur : RowRef
  stream : List RowRef
  eofF : Bool

/-- The `do … while (target_block_row < batch_size)` loop of
`BlockReader::_unique_key_next_block`: copy the current row into the block,
pull the next row (end-of-file breaks), and continue while the block is not
full.  The iterator never re-surfaces lower versions of a key, so every
surfaced row is appended. -/
def uniqueLoop (batch : Nat) : RowRef → List RowRef → List RowRef → UniqueLoopRes
  | cur, stream, built =>
    let built := built ++ [cur]
    match stream with
    | [] => { built := built, cur := cur, stream := [], eofF := true }
    | r :: rest =>
      if built.length < batch then uniqueLoop batch r rest built
      else { built := built, cur := r, stream := rest, eofF := false }

/-- Modelled from the spec: `Block::filter_block(block, filter_column_id,
column_to_keep)` is not among the excerpted sources.  Per the spec's words it
applies the keep mask (built from the synthetic delete-filter column),
physically removing the dropped rows, and drops the columns from
`column_to_keep` onward — here exactly the synthetic filter column appended
after the schema columns.  The block is modelled as its logical rows plus the
names of synthetic columns appended beyond the schema. -/
def filter_block (rows : List RowRef) (extra : List String) (keep : RowRef → Bool) :
    List RowRef × List String :=
  (rows.filter keep, extra.take 0)

/-- The strategy `BlockReader::_unique_key_next_block`: at `_eof` report end-of-stream with
OK; otherwise build up to `batch_size` rows (recording their locations when
`record_rowids`), then, if delete filtering is enabled: an out-of-bounds
delete-sign schema index (`idx <= 0 || idx >= target_columns.size()`) logs a
warning and returns OK with the filter skipped; otherwise the keep mask keeps
row `i` iff its delete marker is zero, locations of dropped rows are marked
invalid (`row_id = -1`, counted only under `record_rowids`), the synthetic
filter column is appended and `filter_block` removes dropped rows and the
synthetic column, and `rows_del_filtered` grows by the number dropped.  The
populated columns are aliased by the block (`mutate_columns` is modelled from
the spec as handing out the block's own columns of a freshly caller-created
block), so every return path delivers the populated rows. -/
def unique_key_next_block {σ : Type} (p : Params) (st : Reader σ) : NextRes σ :=
  if st.eof then
    { ok := true, eof := true, rows := [], built := [], aggOut := [], extra_names := [],
      locs := st.block_row_locations, merged := 0, warned := false, reader := st }
  else
    let lr := uniqueLoop p.batch_size st.next_row st.stream []
    let locs0 := if p.record_rowids then lr.built.map (fun r => r.row_loc)
      else st.block_row_locations
    let st' : Reader σ := { st with
      next_row := lr.cur
      stream := lr.stream
      eof := lr.eofF
      block_row_locations := locs0 }
    if p.delete_sign_available then
      if p.delete_sign_idx ≤ 0 ∨ (p.num_columns : Int) ≤ p.delete_sign_idx then
        { ok := true, eof := lr.eofF, rows := lr.built, built := lr.built, aggOut := [],
          extra_names := [], locs := locs0, merged := 0, warned := true, reader := st' }
      else
        let locs1 := if p.record_rowids then
            lr.built.map (fun r => if r.delete_sign == 0 then r.row_loc else -1)
          else st.block_row_locations
        let fb := filter_block lr.built ["__DORIS_COMPACTION_FILTER__"]
          (fun r => r.delete_sign == 0)
        { ok := true, eof := lr.eofF, rows := fb.1, built := lr.built, aggOut := [],
          extra_names := fb.2, locs := locs1, merged := 0, warned := false,
          reader := { st' with
            block_row_locations := locs1
            rows_del_filtered :=
              st.rows_del_filtered + (lr.built.length - fb.1.length) } }
    else
      { ok := true, eof := lr.eofF, rows := lr.built, built := lr.built, aggOut := [],
        extra_names := [], locs := locs0, merged := 0, warned := false, reader := st' }

/-- The strategy `BlockReader::_direct_next_block`: delegates wholesale to
`VCollectIterator::next(Block*)`, which is external; modelled from the spec:
pull rows in iterator order into the block until end-of-stream or the batch
limit, `*eof` set iff the iterator was already exhausted.
`current_block_row_locations` (also external) is modelled as the delivered
rows' locations, matching the `DCHECK_EQ(size, block->rows())`. -/
def direct_next_block {σ : Type} (p : Params) (st : Reader σ) : NextRes σ :=
  let inp := inputRows st
  let rows := inp.take p.batch_size
  let rest := inp.drop p.batch_size
  let locs := if p.record_rowids then rows.map (fun r => r.row_loc)
    else st.block_row_locations
  { ok := true, eof := inp.isEmpty, rows := rows, built := rows, aggOut := [],
    extra_names := [], locs := locs, merged := 0, warned := false,
    reader := { advanceTo st rest with block_row_locations := locs } }

/-- The next-block strategy selected once at `BlockReader::init`
(`_next_block_func`): direct (DUP_KEYS, forced direct mode, or merge-on-write
UNIQUE_KEYS queries), unique-key, or aggregation. -/
inductive Strategy
  | direct
  | unique
  | agg
deriving DecidableEq

/-- Dispatch through the selected strategy, as `next_block_with_aggregation`
does through `_next_block_func`. -/
def next_block {σ : Type} (p : Params) (fn : AggFn σ) : Strategy → Reader σ → NextRes σ
  | .direct => direct_next_block p
  | .unique => unique_key_next_block p
  | .agg => agg_key_next_block p fn

/-- The caller's pull loop: repeatedly produce blocks until `_eof` (fuel-bounded
so that the model is total; the claims proved about it are invariants of the
produced blocks, not termination claims). -/
def runReader {σ : Type} (p : Params) (fn : AggFn σ) (strat : Strategy) :
    Nat → Reader σ → List (List RowRef)
  | 0, _ => []
  | fuel + 1, st =>
    if st.eof then []
    else
      let r := next_block p fn strat st
      r.rows :: runReader p fn strat fuel r.reader

/-- The tail of `BlockReader::_init_collect_iter`: after `build_heap`,
`current_row(&_next_row)` positions the reader on the first merged row and an
`END_OF_FILE` status only marks `_eof` — the function still returns OK.  The
rowset-capture and child-add phases are external I/O and out of scope. -/
def init_collect_iter {σ : Type} (fn : AggFn σ) (rows : List RowRef) : Reader σ :=
  advanceTo
    { next_row := default, stream := [], eof := true,
      agg := { stored_row_ref := [], agg_data_counters := [], last_agg_data_counter := 0,
               place := fn.init },
      merged_rows := 0, rows_del_filtered := 0, block_row_locations := [] } rows

/-- The resolution loop of `BlockReader::_init_agg_state`: resolve each
aggregated column's reader aggregate function, failing with `InternalError` at
the first unresolvable one, and allocate one created state per resolved
column. -/
def initAggGo {σ : Type} (resolve : Nat → Option (AggFn σ)) :
    List Nat → List (AggFn σ) → Except String (List (AggFn σ))
  | [], acc => Except.ok acc
  | i :: rest, acc =>
    match resolve i with
    | none => Except.error "Failed to init reader when init agg state"
    | some f => initAggGo resolve rest (acc ++ [f])

/-- The setup `BlockReader::_init_agg_state`: at `_eof` it returns OK immediately,
resolving and allocating nothing; otherwise it runs the resolution loop over
`_agg_columns_idx`.  A failure propagates out of `init`
(`RETURN_IF_ERROR(_init_agg_state(read_params))`) to the caller and is not
retried. -/
def init_agg_state {σ : Type} (eofF : Bool) (resolve : Nat → Option (AggFn σ))
    (agg_columns_idx : List Nat) : Except String (List (AggFn σ)) :=
  if eofF then Except.ok []
  else initAggGo resolve agg_columns_idx []

/-! ## Basic lemmas about the state machine -/

theorem inputRows_advanceTo {σ : Type} (st : Reader σ) (l : List RowRef) :
    inputRows (advanceTo st l) = l := by
  cases l <;> simp [advanceTo, inputRows]

/-- The pull loop of the aggregation strategy consumes a leading segment of the
iterator stream, and the output rows it appends are (in order) among the
consumed rows. -/
theorem aggLoop_consume {σ : Type} (p : Params) (fn : AggFn σ) :
    ∀ (stream : List RowRef) (cur : RowRef) (ast : AggSt σ) (rows : List RowRef)
      (out : List Int) (merged : Nat),
    ∃ pre ext,
      (aggLoop p fn stream cur ast rows out merged).rows = rows ++ ext ∧
      ext.Sublist pre ∧
      stream = pre ++ (if (aggLoop p fn stream cur ast rows out merged).eofF then []
        else (aggLoop p fn stream cur ast rows out merged).cur ::
          (aggLoop p fn stream cur ast rows out merged).stream) := by
  intro stream
  induction stream with
  | nil =>
    intro cur ast rows out merged
    exact ⟨[], [], by simp [aggLoop], by simp, by simp [aggLoop]⟩
  | cons r rest ih =>
    intro cur ast rows out merged
    by_cases hs : r.is_same = true
    · obtain ⟨pre1, ext1, h1, h2, h3⟩ :=
        ih r (append_agg_data p fn r ast out).1 rows (append_agg_data p fn r ast out).2
          (merged + 1)
      refine ⟨r :: pre1, ext1, ?_, h2.cons r, ?_⟩
      · simpa [aggLoop, hs] using h1
      · simp only [aggLoop, hs, if_true]
        rw [List.cons_append]
        exact congrArg (r :: ·) h3
    · by_cases hfull : (rows.length == p.batch_size) = true
      · refine ⟨[], [], ?_, by simp, ?_⟩
        · simp [aggLoop, hs, hfull]
        · simp [aggLoop, hs, hfull]
      · obtain ⟨pre1, ext1, h1, h2, h3⟩ :=
          ih r (append_agg_data p fn r
              { ast with
                agg_data_counters := ast.agg_data_counters ++ [ast.last_agg_data_counter]
                last_agg_data_counter := 0 } out).1
            (rows ++ [r])
            (append_agg_data p fn r
              { ast with
                agg_data_counters := ast.agg_data_counters ++ [ast.last_agg_data_counter]
                last_agg_data_counter := 0 } out).2 merged


        refine ⟨r :: pre1, r :: ext1, ?_, h2.cons₂ r, ?_⟩
        · simp only [aggLoop, hs, hfull, if_false, Bool.false_eq_true]
          rw [h1, List.append_assoc]
          rfl
        · simp only [aggLoop, hs, hfull, if_false, Bool.false_eq_true]
          rw [List.cons_append]
          exact congrArg (r :: ·) h3

/-- The build loop of the unique-key strategy consumes exactly the rows it
copies into the block, a leading segment of the iterator stream. -/
theorem uniqueLoop_consume (batch : Nat) :
    ∀ (stream : List RowRef) (cur : RowRef) (built : List RowRef),
    ∃ pre,
      (uniqueLoop batch cur stream built).built = built ++ cur :: pre ∧
      stream = pre ++ (if (uniqueLoop batch cur stream built).eofF then []
        else (uniqueLoop batch cur stream built).cur ::
          (uniqueLoop batch cur stream built).stream) := by
  intro stream
  induction stream with
  | nil =>
    intro cur built
    exact ⟨[], by simp [uniqueLoop], by simp [uniqueLoop]⟩
  | cons r rest ih =>
    intro cur built
    by_cases hlt : (built ++ [cur]).length < batch
    · obtain ⟨pre1, h1, h2⟩ := ih r (built ++ [cur])
      refine ⟨r :: pre1, ?_, ?_⟩
      · simp only [uniqueLoop]
        rw [if_pos hlt, h1, List.append_assoc]
        rfl
      · simp only [uniqueLoop]
        rw [if_pos hlt, List.cons_append]
        exact congrArg (r :: ·) h2
    · refine ⟨[], ?_, ?_⟩
      · simp only [uniqueLoop]
        rw [if_neg hlt]
      · simp only [uniqueLoop]
        rw [if_neg hlt]
        simp

/-- One next-block call, under any strategy, consumes a leading segment of the
pending iterator rows, and the delivered block's rows appear in order among the
consumed rows. -/
theorem next_block_consume {σ : Type} (p : Params) (fn : AggFn σ) (strat : Strategy)
    (st : Reader σ) (h : st.eof = false) :
    ∃ P, inputRows st = P ++ inputRows (next_block p fn strat st).reader ∧
      (next_block p fn strat st).rows.Sublist P := by
  cases strat with
  | direct =>
    refine ⟨(inputRows st).take p.batch_size, ?_, ?_⟩
    · simp only [next_block, direct_next_block]
      have : inputRows
          ({ advanceTo st ((inputRows st).drop p.batch_size) with
             block_row_locations :=
               if p.record_rowids then
                 ((inputRows st).take p.batch_size).map (fun r => r.row_loc)
               else st.block_row_locations }) =
          (inputRows st).drop p.batch_size := by
        rcases hd : (inputRows st).drop p.batch_size with _ | ⟨a, l⟩ <;>
          simp [advanceTo, inputRows]
      rw [this, List.take_append_drop]
    · simp only [next_block, direct_next_block]
      exact List.Sublist.refl _
  | unique =>
    obtain ⟨pre, h1, h2⟩ := uniqueLoop_consume p.batch_size st.stream st.next_row []
    have hbuilt : (uniqueLoop p.batch_size st.next_row st.stream []).built =
        st.next_row :: pre := by simpa using h1
    refine ⟨st.next_row :: pre, ?_, ?_⟩
    · have hin : inputRows st = st.next_row :: st.stream := by simp [inputRows, h]
      rw [hin, h2]
      simp only [next_block, unique_key_next_block, h, if_false, Bool.false_eq_true]
      by_cases hav : p.delete_sign_available = true
      · by_cases hbad : p.delete_sign_idx ≤ 0 ∨ (p.num_columns : Int) ≤ p.delete_sign_idx

        · simp [hav, hbad, inputRows]
        · simp [hav, hbad, inputRows]
      · simp only [Bool.not_eq_true] at hav
        simp [hav, inputRows]
    · simp only [next_block, unique_key_next_block, h, if_false, Bool.false_eq_true]
      by_cases hav : p.delete_sign_available = true
      · by_cases hbad : p.delete_sign_idx ≤ 0 ∨ (p.num_columns : Int) ≤ p.delete_sign_idx

        · simp only [hav, if_true, hbad]
          rw [hbuilt]
        · simp only [hav, if_true, hbad, if_false, filter_block]
          exact hbuilt ▸ List.filter_sublist _
      · simp only [Bool.not_eq_true] at hav
        simp only [hav, Bool.false_eq_true, if_false]
        rw [hbuilt]
  | agg =>
    obtain ⟨pre, ext, h1, h2, h3⟩ :=
      aggLoop_consume p fn st.stream st.next_row
        (append_agg_data p fn st.next_row st.agg []).1 [st.next_row]
        (append_agg_data p fn st.next_row st.agg []).2 0
    refine ⟨st.next_row :: pre, ?_, ?_⟩
    · have hin : inputRows st = st.next_row :: st.stream := by simp [inputRows, h]
      rw [hin, h3]
      simp only [next_block, agg_key_next_block, h, if_false, Bool.false_eq_true]
      simp [inputRows]
    · simp only [next_block, agg_key_next_block, h, if_false, Bool.false_eq_true]
      rw [h1]
      simpa using h2.cons₂ st.next_row

/-- Across a whole scan, the concatenation of all delivered blocks' rows is (in
order) a selection of the rows the iterator delivers. -/
theorem runReader_join_sublist {σ : Type} (p : Params) (fn : AggFn σ) (strat : Strategy) :
    ∀ (fuel : Nat) (st : Reader σ),
      ((runReader p fn strat fuel st).flatten).Sublist (inputRows st) := by
  intro fuel
  induction fuel with
  | zero => intro st; simp [runReader]
  | succ fuel ih =>
    intro st
    by_cases h : st.eof = true
    · simp [runReader, h]
    · simp only [Bool.not_eq_true] at h
      simp only [runReader, h, Bool.false_eq_true, if_false, List.flatten_cons]
      obtain ⟨P, hP, hsub⟩ := next_block_consume p fn strat st h
      rw [hP]
      exact hsub.append (ih _)

/-- C2: if the merge iterator yields rows whose keys are pairwise ordered by a
relation `R` (e.g. `≤` for an ascending scan, `≥` for a reverse-ordered one),
then under every next-block strategy the keys of the rows appended to the
output blocks — within one block and across successive blocks — are pairwise
ordered by `R`, because each strategy appends rows only in the order the
iterator delivers them. -/
theorem claim_C2_order_invariant {σ : Type} (R : Nat → Nat → Prop) (p : Params)
    (fn : AggFn σ) (strat : Strategy) (fuel : Nat) (st : Reader σ)
    (h : ((inputRows st).map RowRef.key).Pairwise R) :
    (((runReader p fn strat fuel st).flatten).map RowRef.key).Pairwise R :=
  h.sublist ((runReader_join_sublist p fn strat fuel st).map RowRef.key)

/-! ## Concrete scenario instances (shared by witnesses and counterexamples) -/

/-- The SUM reader aggregate over `Int`, the spec's running example. -/
def sumFn : AggFn Int :=
  { init := 0, add := fun s v => s + v, result := fun s => s }

/-- A row for the aggregation scenarios. -/
def aggRow (k : Nat) (v : Int) (same : Bool) : RowRef :=
  { key := k, aval := v, delete_sign := 0, row_loc := (k : Int), is_same := same,
    last_in_block := false }

/-- A row for the unique-key delete-filter scenarios. -/
def delRow (k : Nat) (d : Int) : RowRef :=
  { key := k, aval := 0, delete_sign := d, row_loc := (k : Int), is_same := false,
    last_in_block := false }

/-- Batch size 1, no delete filtering. -/
def p1 : Params :=
  { batch_size := 1, record_rowids := false, delete_sign_available := false,
    delete_sign_idx := 0, num_columns := 3 }

/-- Batch size 0, no delete filtering. -/
def p0 : Params := { p1 with batch_size := 0 }

/-- Unique-key scan with delete filtering and row-location recording, valid
delete-sign index. -/
def pu : Params :=
  { batch_size := 4, record_rowids := true, delete_sign_available := true,
    delete_sign_idx := 2, num_columns := 3 }

/-- Aggregation scenario: keys 1, 1, 2 with values 10, 20, 5 (spec testable
property 8). -/
def st3 : Reader Int :=
  init_collect_iter sumFn [aggRow 1 10 false, aggRow 1 20 true, aggRow 2 5 false]

/-- Unique-key scenario: keys 1, 2, 3, the middle row soft-deleted. -/
def stu : Reader Int :=
  init_collect_iter sumFn [delRow 1 0, delRow 2 1, delRow 3 0]

/-! ## The aggregation strategy: batch limit, non-empty blocks, flush algebra -/

/-- Loop invariants of the aggregation pull loop for a positive batch size: the
output-row count never exceeds the batch size; the loop ends at end-of-stream
or on a full block with a new (not same-key) row left pending; and every
consumed row was either appended as an output row or counted as merged. -/
theorem aggLoop_batch {σ : Type} (p : Params) (fn : AggFn σ) :
    ∀ (stream : List RowRef) (cur : RowRef) (ast : AggSt σ) (rows : List RowRef)
      (out : List Int) (merged : Nat), rows.length ≤ p.batch_size →
      ((aggLoop p fn stream cur ast rows out merged).rows.length ≤ p.batch_size ∧
       ((aggLoop p fn stream cur ast rows out merged).eofF = true ∨
         ((aggLoop p fn stream cur ast rows out merged).rows.length = p.batch_size ∧
          (aggLoop p fn stream cur ast rows out merged).cur.is_same = false)) ∧
       stream.length + rows.length + merged =
         (aggLoop p fn stream cur ast rows out merged).rows.length +
         (aggLoop p fn stream cur ast rows out merged).merged +
         (if (aggLoop p fn stream cur ast rows out merged).eofF then 0
          else 1 + (aggLoop p fn stream cur ast rows out merged).stream.length)) := by
  intro stream
  induction stream with
  | nil =>
    intro cur ast rows out merged hle
    refine ⟨by simpa [aggLoop] using hle, Or.inl (by simp [aggLoop]), ?_⟩
    simp [aggLoop]
  | cons r rest ih =>
    intro cur ast rows out merged hle
    by_cases hs : r.is_same = true
    · obtain ⟨h1, h2, h3⟩ :=
        ih r (append_agg_data p fn r ast out).1 rows (append_agg_data p fn r ast out).2
          (merged + 1) hle
      refine ⟨?_, ?_, ?_⟩
      · simpa [aggLoop, hs] using h1
      · simpa [aggLoop, hs] using h2
      · simp only [aggLoop, hs, if_true, List.length_cons]
        rw [← h3]
        omega
    · by_cases hfull : (rows.length == p.batch_size) = true
      · have heq : rows.length = p.batch_size := by simpa using hfull
        have hsf : r.is_same = false := by simpa using hs
        refine ⟨?_, ?_, ?_⟩
        · simp [aggLoop, hs, hfull, heq]
        · exact Or.inr (by simp [aggLoop, hs, hfull, heq, hsf])
        · simp [aggLoop, hs, hfull]
          omega
      · have hne : rows.length ≠ p.batch_size := by
          intro hx
          exact hfull (by simpa using hx)
        have hle' : (rows ++ [r]).length ≤ p.batch_size := by
          simp only [List.length_append, List.length_cons, List.length_nil]
          omega
        obtain ⟨h1, h2, h3⟩ :=
          ih r (append_agg_data p fn r
              { ast with
                agg_data_counters := ast.agg_data_counters ++ [ast.last_agg_data_counter]
                last_agg_data_counter := 0 } out).1
            (rows ++ [r])
            (append_agg_data p fn r
              { ast with
                agg_data_counters := ast.agg_data_counters ++ [ast.last_agg_data_counter]
                last_agg_data_counter := 0 } out).2 merged hle'
        refine ⟨?_, ?_, ?_⟩
        · simpa [aggLoop, hs, hfull] using h1
        · simpa [aggLoop, hs, hfull] using h2
        · simp only [aggLoop, hs, hfull, if_false, Bool.false_eq_true, List.length_cons]
          rw [← h3]
          simp only [List.length_append, List.length_cons, List.length_nil]
          omega

/-- C3 (amended): under AGG_KEYS with a batch size of at least 1, a next-block
call that does not start at end-of-stream appends at most batch-size output
rows; it ends only at end-of-stream or when a row with a new key arrives while
the block is full (that row is left pending as the current row); and every
consumed input row was either appended as an output row or accumulated as a
merged same-key row.  (For batch size 0 the limit check never fires, since the
output-row count starts at 1 — see the counterexample.) -/
theorem claim_C3_agg_batch_limit {σ : Type} (p : Params) (fn : AggFn σ) (st : Reader σ)
    (hb : 1 ≤ p.batch_size) (h : st.eof = false) :
    (agg_key_next_block p fn st).rows.length ≤ p.batch_size ∧
    ((agg_key_next_block p fn st).eof = true ∨
      ((agg_key_next_block p fn st).rows.length = p.batch_size ∧
       (agg_key_next_block p fn st).reader.next_row.is_same = false)) ∧
    (inputRows st).length =
      (agg_key_next_block p fn st).rows.length + (agg_key_next_block p fn st).merged +
      (inputRows (agg_key_next_block p fn st).reader).length := by
  have hb1 : ([st.next_row] : List RowRef).length ≤ p.batch_size := by simpa using hb
  obtain ⟨h1, h2, h3⟩ :=
    aggLoop_batch p fn st.stream st.next_row
      (append_agg_data p fn st.next_row st.agg []).1 [st.next_row]
      (append_agg_data p fn st.next_row st.agg []).2 0 hb1
  refine ⟨?_, ?_, ?_⟩
  · simpa [agg_key_next_block, h] using h1
  · simpa [agg_key_next_block, h] using h2
  · by_cases heo : (aggLoop p fn st.stream st.next_row
        (append_agg_data p fn st.next_row st.agg []).1 [st.next_row]
        (append_agg_data p fn st.next_row st.agg []).2 0).eofF = true
    · rw [heo] at h3
      simp at h3
      simp [agg_key_next_block, h, inputRows, heo]
      omega
    · have heo' : (aggLoop p fn st.stream st.next_row
          (append_agg_data p fn st.next_row st.agg []).1 [st.next_row]
          (append_agg_data p fn st.next_row st.agg []).2 0).eofF = false := by
        simpa using heo
      rw [heo'] at h3
      simp at h3
      simp [agg_key_next_block, h, inputRows, heo']
      omega

/-- Witness for C3 at a concrete input: batch size 1, stream with keys 1, 1, 2. -/
theorem claim_C3_witness :
    (1 ≤ p1.batch_size ∧ st3.eof = false) ∧
    ((agg_key_next_block p1 sumFn st3).rows.length ≤ p1.batch_size ∧
     ((agg_key_next_block p1 sumFn st3).eof = true ∨
       ((agg_key_next_block p1 sumFn st3).rows.length = p1.batch_size ∧
        (agg_key_next_block p1 sumFn st3).reader.next_row.is_same = false)) ∧
     (inputRows st3).length =
       (agg_key_next_block p1 sumFn st3).rows.length + (agg_key_next_block p1 sumFn st3).merged +
       (inputRows (agg_key_next_block p1 sumFn st3).reader).length) :=
  ⟨⟨by decide, rfl⟩, claim_C3_agg_batch_limit p1 sumFn st3 (by decide) rfl⟩

/-- Counterexample to C3 as stated: with batch size 0 the aggregation strategy
still appends output rows (the count starts at 1 before any comparison, so the
`target_block_row == batch_size` check never fires) — here two rows, exceeding
the claimed batch-size bound of 0. -/
theorem claim_C3_counterexample :
    ¬ ((agg_key_next_block p0 sumFn st3).rows.length ≤ p0.batch_size) := by decide

/-- C10: every AGG_KEYS next-block call that does not begin at end-of-stream
appends at least one output row: the current row's non-aggregated columns are
inserted unconditionally before the pull loop and before any batch-size
comparison. -/
theorem claim_C10_agg_nonempty {σ : Type} (p : Params) (fn : AggFn σ) (st : Reader σ)
    (h : st.eof = false) : 1 ≤ (agg_key_next_block p fn st).rows.length := by
  obtain ⟨pre, ext, h1, h2, h3⟩ :=
    aggLoop_consume p fn st.stream st.next_row
      (append_agg_data p fn st.next_row st.agg []).1 [st.next_row]
      (append_agg_data p fn st.next_row st.agg []).2 0
  have : (agg_key_next_block p fn st).rows = st.next_row :: ext := by
    simpa [agg_key_next_block, h] using h1
  rw [this]
  simp

/-- Witness for C10 at a concrete input with batch size 0 (the edge case the
claim calls out). -/
theorem claim_C10_witness :
    st3.eof = false ∧ 1 ≤ (agg_key_next_block p0 sumFn st3).rows.length :=
  ⟨rfl, claim_C10_agg_nonempty p0 sumFn st3 rfl⟩

/-- Running `_update_agg_value` over the full stored range `[0, vals.length - 1]` folds
the aggregate over exactly the stored values. -/
theorem update_agg_value_full {σ : Type} (fn : AggFn σ) (vals : List Int) (place : σ)
    (out : List Int) (c : Bool) :
    update_agg_value fn vals place out 0 ((vals.length : Int) - 1) c =
      if c then (fn.init, out ++ [fn.result (vals.foldl fn.add place)])
      else (vals.foldl fn.add place, out) := by
  unfold update_agg_value
  cases vals with
  | nil => simp
  | cons v vs =>
    have hg : (0 : Int) ≤ (((v :: vs).length : Int) - 1) := by
      simp only [List.length_cons]
      push_cast
      omega
    rw [if_pos hg]
    have ht : (((v :: vs).length : Int) - 1 - 0 + 1).toNat = (v :: vs).length := by
      omega
    simp only [Int.toNat_zero, List.drop_zero, ht, List.take_length]

/-- After `_update_agg_data` runs with a zero open-run counter and a closing
counter recorded last, the aggregation bookkeeping is fully reset: empty
buffer, no counters, zero open-run count, and a freshly reset state. -/
theorem update_agg_data_after_close {σ : Type} (fn : AggFn σ) (ast : AggSt σ)
    (out : List Int) (h0 : ast.last_agg_data_counter = 0) (l : List Nat) (c : Nat)
    (hc : ast.agg_data_counters = l ++ [c]) :
    (update_agg_data fn ast out).1 =
      { stored_row_ref := [], agg_data_counters := [], last_agg_data_counter := 0,
        place := fn.init } := by
  unfold update_agg_data
  rw [hc]
  simp only [List.foldl_append, List.foldl_cons, List.foldl_nil]
  simp [h0, update_agg_value]

/-- The reader's aggregation bookkeeping after any non-end-of-stream AGG_KEYS
next-block call is fully reset: the post-loop close pushes the open-run counter
and the final flush closes every recorded run. -/
theorem agg_next_reader_agg {σ : Type} (p : Params) (fn : AggFn σ) (st : Reader σ)
    (h : st.eof = false) :
    (agg_key_next_block p fn st).reader.agg =
      { stored_row_ref := [], agg_data_counters := [], last_agg_data_counter := 0,
        place := fn.init } := by
  simp only [agg_key_next_block, h, Bool.false_eq_true, if_false]
  exact update_agg_data_after_close fn _ _ rfl _ _ rfl

/-- C4 (amended): for a key-group of N same-key rows under AGG_KEYS, the
finalized aggregate value is insensitive to where the run is split across two
flushes — accumulating a first part without closing (state retained) and then
closing over the second part appends the same finalized value, with the same
reset state, as closing over the whole run in one flush, for every split point
(first conjunct).  However, the split happens across intermediate flushes
within a single next-block call, never across two calls: every call closes and
finalizes all of its runs before returning, leaving the aggregation state fully
reset (second conjunct) — a run is finalized exactly when it truly ends, a new
key arriving or end-of-stream, and the pull loop extends past the batch
boundary until that happens. -/
theorem claim_C4_agg_split_flush {σ : Type} (fn : AggFn σ) :
    (∀ (place : σ) (out : List Int) (v1 v2 : List Int),
       update_agg_value fn v2
         (update_agg_value fn v1 place out 0 ((v1.length : Int) - 1) false).1
         (update_agg_value fn v1 place out 0 ((v1.length : Int) - 1) false).2
         0 ((v2.length : Int) - 1) true =
       update_agg_value fn (v1 ++ v2) place out 0 (((v1 ++ v2).length : Int) - 1) true) ∧
    (∀ (p : Params) (st : Reader σ), st.eof = false →
       (agg_key_next_block p fn st).reader.agg.stored_row_ref = [] ∧
       (agg_key_next_block p fn st).reader.agg.agg_data_counters = [] ∧
       (agg_key_next_block p fn st).reader.agg.last_agg_data_counter = 0 ∧
       (agg_key_next_block p fn st).reader.agg.place = fn.init) := by
  constructor
  · intro place out v1 v2
    have h3 := update_agg_value_full fn (v1 ++ v2) place out true
    simp only [List.length_append, Nat.cast_add] at h3
    simp [update_agg_value_full, List.foldl_append, h3]
  · intro p st h
    rw [agg_next_reader_agg p fn st h]
    exact ⟨rfl, rfl, rfl, rfl⟩

/-- Witness for C4's amended statement at a concrete input. -/
theorem claim_C4_witness :
    st3.eof = false ∧ (agg_key_next_block p1 sumFn st3).reader.agg.place = sumFn.init :=
  ⟨rfl, ((claim_C4_agg_split_flush sumFn).2 p1 st3 rfl).2.2.2⟩

/-- Counterexample to C4 as stated: at the concrete input with keys 1, 1, 2
(values 10, 20, 5) and batch size 1, the key-1 run ends exactly as the block
reaches its boundary (key 2 arrives while the block is full), yet — contrary
to "accumulated without finalizing and its aggregate state is retained into
the next call" — its aggregate 30 is finalized into the block delivered by the
same call and the state is reset to the fresh value, carrying nothing into the
next call. -/
theorem claim_C4_counterexample :
    (agg_key_next_block p1 sumFn st3).eof = false ∧
    (agg_key_next_block p1 sumFn st3).rows.length = p1.batch_size ∧
    (agg_key_next_block p1 sumFn st3).aggOut = [30] ∧
    (agg_key_next_block p1 sumFn st3).reader.agg.place = 0 ∧
    (agg_key_next_block p1 sumFn st3).reader.agg.last_agg_data_counter = 0 := by decide

/-- Witness for C2 at a concrete input: an ascending three-row stream under the
aggregation strategy. -/
theorem claim_C2_witness :
    ((inputRows st3).map RowRef.key).Pairwise (fun a b => a ≤ b) ∧
    (((runReader p1 sumFn Strategy.agg 5 st3).flatten).map RowRef.key).Pairwise
      (fun a b => a ≤ b) :=
  ⟨by decide,
   claim_C2_order_invariant (fun a b => a ≤ b) p1 sumFn Strategy.agg 5 st3 (by decide)⟩

/-! ## The unique-key strategy: delete filtering, row locations, degraded path -/

theorem countP_add_countP_not {α : Type} (q : α → Bool) :
    ∀ l : List α, l.countP q + l.countP (fun a => !(q a)) = l.length := by
  intro l
  induction l with
  | nil => simp
  | cons a l ih =>
    by_cases hq : q a = true <;> simp [List.countP_cons, hq] <;> omega

/-- Projections of the unique-key next-block call on the delete-filtering path
(delete filtering enabled, delete-sign index in bounds). -/
theorem unique_filter_proj {σ : Type} (p : Params) (st : Reader σ) (h : st.eof = false)
    (hav : p.delete_sign_available = true) (hlo : 0 < p.delete_sign_idx)
    (hhi : p.delete_sign_idx < (p.num_columns : Int)) :
    (unique_key_next_block p st).rows =
      ((uniqueLoop p.batch_size st.next_row st.stream []).built).filter
        (fun r => r.delete_sign == 0) ∧
    (unique_key_next_block p st).built =
      (uniqueLoop p.batch_size st.next_row st.stream []).built ∧
    (unique_key_next_block p st).extra_names = [] ∧
    (unique_key_next_block p st).locs =
      (if p.record_rowids then
        ((uniqueLoop p.batch_size st.next_row st.stream []).built).map
          (fun r => if r.delete_sign == 0 then r.row_loc else -1)
      else st.block_row_locations) := by
  have hbad : ¬ (p.delete_sign_idx ≤ 0 ∨ (p.num_columns : Int) ≤ p.delete_sign_idx) := by
    push_neg
    exact ⟨hlo, hhi⟩
  refine ⟨?_, ?_, ?_, ?_⟩ <;> simp [unique_key_next_block, h, hav, hbad, filter_block]

/-- Every row the unique-key build loop populates is one of the pending
iterator rows. -/
theorem unique_built_mem {σ : Type} (p : Params) (st : Reader σ) (h : st.eof = false) :
    ∀ r ∈ (uniqueLoop p.batch_size st.next_row st.stream []).built, r ∈ inputRows st := by
  obtain ⟨pre, h1, h2⟩ := uniqueLoop_consume p.batch_size st.stream st.next_row []
  intro r hr
  rw [h1] at hr
  simp only [List.nil_append, List.mem_cons] at hr
  have hin : inputRows st = st.next_row :: st.stream := by simp [inputRows, h]
  rw [hin, h2]
  rcases hr with hr | hr
  · simp [hr]
  · simp [List.mem_append, hr]

/-- C5: under UNIQUE_KEYS with delete filtering enabled, a valid delete-sign
column index and row-location tracking on, for a built batch of M rows of
which the subset S carries a nonzero delete marker: the filter keeps a row iff
its marker is zero, so the delivered block has exactly M − |S| rows in their
original relative order; the synthetic filter column is absent from the
delivered block; and exactly |S| row-location entries are marked invalid with
the `row_id = -1` sentinel (given that source locations are non-negative, as
`row_id`s are). -/
theorem claim_C5_delete_filter {σ : Type} (p : Params) (st : Reader σ)
    (h : st.eof = false) (hav : p.delete_sign_available = true)
    (hrec : p.record_rowids = true) (hlo : 0 < p.delete_sign_idx)
    (hhi : p.delete_sign_idx < (p.num_columns : Int))
    (hloc : ∀ r ∈ inputRows st, 0 ≤ r.row_loc) :
    (unique_key_next_block p st).rows =
      ((unique_key_next_block p st).built).filter (fun r => r.delete_sign == 0) ∧
    (unique_key_next_block p st).rows.length +
      ((unique_key_next_block p st).built).countP (fun r => !(r.delete_sign == 0)) =
      ((unique_key_next_block p st).built).length ∧
    ((unique_key_next_block p st).rows).Sublist ((unique_key_next_block p st).built) ∧
    (unique_key_next_block p st).extra_names = [] ∧
    (unique_key_next_block p st).locs.length = ((unique_key_next_block p st).built).length ∧
    ((unique_key_next_block p st).locs).countP (fun x => x == -1) =
      ((unique_key_next_block p st).built).countP (fun r => !(r.delete_sign == 0)) := by
  obtain ⟨hrows, hbuilt, hex, hlocs⟩ := unique_filter_proj p st h hav hlo hhi
  rw [hrec, if_pos rfl] at hlocs
  refine ⟨?_, ?_, ?_, hex, ?_, ?_⟩
  · rw [hrows, hbuilt]
  · rw [hrows, hbuilt, ← List.countP_eq_length_filter]
    exact countP_add_countP_not _ _
  · rw [hrows, hbuilt]
    exact List.filter_sublist _
  · rw [hlocs, hbuilt, List.length_map]
  · rw [hlocs, hbuilt, List.countP_map]
    refine List.countP_congr ?_
    intro r hr
    have hge : 0 ≤ r.row_loc := hloc r (unique_built_mem p st h r hr)
    by_cases hd : (r.delete_sign == 0) = true
    · simp only [Function.comp, hd, if_pos rfl, Bool.not_true]
      have : r.row_loc ≠ -1 := by omega
      simp [this]
    · have hd' : (r.delete_sign == 0) = false := by simpa using hd
      simp [Function.comp, hd']

/-- Witness for C5 at a concrete input: keys 1, 2, 3 with the middle row
soft-deleted. -/
theorem claim_C5_witness :
    (stu.eof = false ∧ pu.delete_sign_available = true ∧ pu.record_rowids = true ∧
      0 < pu.delete_sign_idx ∧ pu.delete_sign_idx < (pu.num_columns : Int) ∧
      ∀ r ∈ inputRows stu, 0 ≤ r.row_loc) ∧
    ((unique_key_next_block pu stu).rows.length +
       ((unique_key_next_block pu stu).built).countP (fun r => !(r.delete_sign == 0)) =
       ((unique_key_next_block pu stu).built).length ∧
     ((unique_key_next_block pu stu).locs).countP (fun x => x == -1) =
       ((unique_key_next_block pu stu).built).countP (fun r => !(r.delete_sign == 0))) :=
  ⟨⟨rfl, rfl, rfl, by decide, by decide, by decide⟩,
   (claim_C5_delete_filter pu stu rfl rfl rfl (by decide) (by decide) (by decide)).2.1,
   (claim_C5_delete_filter pu stu rfl rfl rfl (by decide) (by decide)
      (by decide)).2.2.2.2.2⟩

/-- C6 (amended): when row-location recording is requested, after a successful
next-block call the row-location list has exactly
`delivered rows + rows dropped by the delete filter` entries: the entries of
filtered-out rows are marked invalid in place but not removed, so the list
matches the block's row count only when nothing was filtered — in particular
under the direct strategy and under the unique-key strategy without delete
filtering. -/
theorem claim_C6_row_location_size {σ : Type} (p : Params) (st : Reader σ)
    (hrec : p.record_rowids = true) (h : st.eof = false) :
    (p.delete_sign_available = true → 0 < p.delete_sign_idx →
      p.delete_sign_idx < (p.num_columns : Int) →
      (unique_key_next_block p st).locs.length =
        (unique_key_next_block p st).rows.length +
        ((unique_key_next_block p st).built).countP (fun r => !(r.delete_sign == 0))) ∧
    (p.delete_sign_available = false →
      (unique_key_next_block p st).locs.length = (unique_key_next_block p st).rows.length) ∧
    ((direct_next_block p st).locs.length = (direct_next_block p st).rows.length) := by
  refine ⟨?_, ?_, ?_⟩
  · intro hav hlo hhi
    obtain ⟨hrows, hbuilt, hex, hlocs⟩ := unique_filter_proj p st h hav hlo hhi
    rw [hrec, if_pos rfl] at hlocs
    rw [hlocs, hbuilt, List.length_map, hrows, ← List.countP_eq_length_filter]
    exact (countP_add_countP_not _ _).symm
  · intro hav
    simp [unique_key_next_block, h, hav, hrec]
  · simp [direct_next_block, hrec]

/-- Witness for C6's amended statement at a concrete input. -/
theorem claim_C6_witness :
    (unique_key_next_block pu stu).locs.length =
      (unique_key_next_block pu stu).rows.length +
      ((unique_key_next_block pu stu).built).countP (fun r => !(r.delete_sign == 0)) :=
  (claim_C6_row_location_size pu stu rfl rfl).1 rfl (by decide) (by decide)

/-- Counterexample to C6 as stated: at the concrete input (keys 1, 2, 3, the
middle row soft-deleted, row-location recording on) the next-block call
succeeds and delete filtering removes one row, after which the row-location
list still has 3 entries while the delivered block has 2 rows — the list does
not match the block's row count after filtering. -/
theorem claim_C6_counterexample :
    (unique_key_next_block pu stu).ok = true ∧
    (unique_key_next_block pu stu).locs.length = 3 ∧
    (unique_key_next_block pu stu).rows.length = 2 := by decide

/-- C7: under UNIQUE_KEYS with delete filtering enabled, if the delete-sign
column's schema index is not strictly positive or not within the bounds of the
output columns, the next-block call logs a warning, skips delete filtering for
that block (the filtered-row counter does not move), and still returns success
with the batch's populated rows delivered unfiltered — exactly the rows a scan
without delete filtering would deliver — so the scan continues. -/
theorem claim_C7_invalid_delete_idx {σ : Type} (p : Params) (st : Reader σ)
    (h : st.eof = false) (hav : p.delete_sign_available = true)
    (hbad : p.delete_sign_idx ≤ 0 ∨ (p.num_columns : Int) ≤ p.delete_sign_idx) :
    (unique_key_next_block p st).ok = true ∧
    (unique_key_next_block p st).warned = true ∧
    (unique_key_next_block p st).rows = (unique_key_next_block p st).built ∧
    (unique_key_next_block p st).reader.rows_del_filtered = st.rows_del_filtered ∧
    (unique_key_next_block p st).rows =
      (unique_key_next_block { p with delete_sign_available := false } st).rows := by
  refine ⟨?_, ?_, ?_, ?_, ?_⟩ <;>
    simp [unique_key_next_block, h, hav, hbad]

/-- Witness for C7 at a concrete input: the delete-sign index 0 is rejected and
the call degrades to an unfiltered delivery. -/
theorem claim_C7_witness :
    (stu.eof = false ∧ pu.delete_sign_available = true ∧ (0 : Int) ≤ 0) ∧
    ((unique_key_next_block { pu with delete_sign_idx := 0 } stu).warned = true ∧
     (unique_key_next_block { pu with delete_sign_idx := 0 } stu).rows =
       (unique_key_next_block { pu with delete_sign_idx := 0 } stu).built) :=
  ⟨⟨rfl, rfl, by decide⟩,
   (claim_C7_invalid_delete_idx { pu with delete_sign_idx := 0 } stu rfl rfl
      (Or.inl (by decide))).2.1,
   (claim_C7_invalid_delete_idx { pu with delete_sign_idx := 0 } stu rfl rfl
      (Or.inl (by decide))).2.2.1⟩

/-! ## Initialization: aggregate-state setup and end-of-stream -/

theorem initAggGo_error {σ : Type} (resolve : Nat → Option (AggFn σ)) :
    ∀ (idxs : List Nat) (acc : List (AggFn σ)), (∃ i ∈ idxs, resolve i = none) →
      initAggGo resolve idxs acc =
        Except.error "Failed to init reader when init agg state" := by
  intro idxs
  induction idxs with
  | nil => intro acc hex; simp at hex
  | cons i rest ih =>
    intro acc hex
    rcases hr : resolve i with _ | f
    · simp [initAggGo, hr]
    · obtain ⟨j, hj, hjn⟩ := hex
      rcases List.mem_cons.mp hj with rfl | hj'
      · rw [hr] at hjn
        simp at hjn
      · simp only [initAggGo, hr]
        exact ih (acc ++ [f]) ⟨j, hj', hjn⟩

theorem initAggGo_ok {σ : Type} (resolve : Nat → Option (AggFn σ)) :
    ∀ (idxs : List Nat) (acc : List (AggFn σ)), (∀ i ∈ idxs, resolve i ≠ none) →
      ∃ fs, initAggGo resolve idxs acc = Except.ok fs ∧
        fs.length = acc.length + idxs.length := by
  intro idxs
  induction idxs with
  | nil => intro acc _; exact ⟨acc, by simp [initAggGo], by simp⟩
  | cons i rest ih =>
    intro acc hall
    rcases hr : resolve i with _ | f
    · exact absurd hr (hall i (List.mem_cons_self i rest))
    · obtain ⟨fs, h1, h2⟩ := ih (acc ++ [f]) (fun j hj => hall j (List.mem_cons_of_mem i hj))


      refine ⟨fs, ?_, ?_⟩
      · simpa [initAggGo, hr] using h1
      · simp only [List.length_append, List.length_cons, List.length_nil] at h2
        simp only [List.length_cons]
        omega

/-- C8 (amended): during AGG_KEYS initialization with the reader not already at
end-of-stream, if any aggregated column's declared aggregate function cannot be
resolved, `_init_agg_state` fails with an internal error (propagated to the
caller by `init`, not retried), and if every function resolves, exactly one
aggregate state is allocated per aggregated column; but when the merge iterator
was already exhausted (`_eof`), `_init_agg_state` returns OK immediately,
resolving nothing and allocating nothing — even if a function would have been
unresolvable. -/
theorem claim_C8_agg_init {σ : Type} (resolve : Nat → Option (AggFn σ)) (idxs : List Nat) :
    ((∃ i ∈ idxs, resolve i = none) →
      init_agg_state false resolve idxs =
        Except.error "Failed to init reader when init agg state") ∧
    ((∀ i ∈ idxs, resolve i ≠ none) →
      ∃ fs, init_agg_state false resolve idxs = Except.ok fs ∧ fs.length = idxs.length) ∧
    init_agg_state true resolve idxs = Except.ok [] := by
  refine ⟨?_, ?_, ?_⟩
  · intro hex
    simpa [init_agg_state] using initAggGo_error resolve idxs [] hex
  · intro hall
    obtain ⟨fs, h1, h2⟩ := initAggGo_ok resolve idxs [] hall
    exact ⟨fs, by simpa [init_agg_state] using h1, by simpa using h2⟩
  · simp [init_agg_state]

/-- Witness for C8's amended statement at concrete inputs: one unresolvable
column fails, two resolvable columns yield two allocated states. -/
theorem claim_C8_witness :
    init_agg_state false (fun _ : Nat => (none : Option (AggFn Int))) [0] =
      Except.error "Failed to init reader when init agg state" ∧
    ∃ fs, init_agg_state false (fun _ : Nat => some sumFn) [0, 1] = Except.ok fs ∧
      fs.length = 2 :=
  ⟨(claim_C8_agg_init (fun _ : Nat => (none : Option (AggFn Int))) [0]).1
      ⟨0, by simp, rfl⟩,
   (claim_C8_agg_init (fun _ : Nat => some sumFn) [0, 1]).2.1
      (by intro i _; simp)⟩

/-- Counterexample to C8 as stated: with the reader already at end-of-stream,
`_init_agg_state` returns OK without resolving the (unresolvable) aggregate
function of the only aggregated column — initialization does not fail, and no
state is allocated. -/
theorem claim_C8_counterexample :
    init_agg_state true (fun _ : Nat => (none : Option (AggFn Int))) [0] = Except.ok [] ∧
    (fun _ : Nat => (none : Option (AggFn Int))) 0 = none :=
  ⟨rfl, rfl⟩

/-- C9: if the merge iterator is already exhausted when the first row is pulled
during initialization, the reader is marked at end-of-stream with no error, and
the first next-block call under the UNIQUE_KEYS or AGG_KEYS strategy returns
success with `*eof = true`, appends no rows, and logs no warning — end-of-stream
is never surfaced as an error or a warning at this layer. -/
theorem claim_C9_eof_at_init {σ : Type} (p : Params) (fn : AggFn σ) :
    (init_collect_iter fn ([] : List RowRef)).eof = true ∧
    (agg_key_next_block p fn (init_collect_iter fn [])).ok = true ∧
    (agg_key_next_block p fn (init_collect_iter fn [])).eof = true ∧
    (agg_key_next_block p fn (init_collect_iter fn [])).rows = [] ∧
    (agg_key_next_block p fn (init_collect_iter fn [])).warned = false ∧
    (unique_key_next_block p (init_collect_iter fn ([] : List RowRef))).ok = true ∧
    (unique_key_next_block p (init_collect_iter fn ([] : List RowRef))).eof = true ∧
    (unique_key_next_block p (init_collect_iter fn ([] : List RowRef))).rows = [] ∧
    (unique_key_next_block p (init_collect_iter fn ([] : List RowRef))).warned = false := by
  refine ⟨rfl, ?_, ?_, ?_, ?_, ?_, ?_, ?_, ?_⟩ <;>
    simp [init_collect_iter, advanceTo, agg_key_next_block, unique_key_next_block]

end DorisBlockReader
